import Mathlib

/-!
# Verification of the behavior_mapping pipeline

Shallow embedding of the core pipeline of the `behavior_mapping` repository
(`behavior_mapper/activities_class.py`, `behavior_mapper/modeling.py`):
per-session activity sequencing, label/ID dictionary construction, the
remapping of trained embedding vectors back onto labels, volume percentile
ranking, and the clustering wrapper.

Conventions:
* A pandas dataframe of activity records is a `List ActRow`; cell values of
  the `activity_ID` column are modelled by `Val` (integer, string, or NaN),
  since the column starts unset, is filled with integers by
  `map_activities`, and is cast to strings inside `sequence`.
* Python dictionaries are association lists with the dict's key-uniqueness
  recorded as a hypothesis where a proof needs it.
* Methods that mutate `self` in the source (`sequence` sorts in place and
  casts the `activity_ID` column; `dbscan_cluster` assigns a new column on
  its argument) are modelled with explicit state passing: the function
  returns the post-state of the mutated argument alongside (or as) its
  result.
* Calls into external libraries (`re.search` via `pandas.Series.str.contains`,
  `sklearn.cluster.DBSCAN`) are modelled as function parameters constrained
  by the library's documented contract, exactly as the spec treats them
  (black boxes behind a defined interface).
* Fallible code (`assert`, exceptions) returns `Except String`.
-/

/-- A cell value of the `activity_ID` column: pandas holds integers after
`map_activities`, strings after the `astype(str)` cast in `sequence`, and
NaN (`vNone`) before the column is populated or when a label misses the map. -/
inductive Val : Type where
  | vInt : Int → Val
  | vStr : String → Val
  | vNone : Val
deriving DecidableEq

/-- One record of the activities table: columns `ID`, `activity`,
`occurrence`, and the later-populated `activity_ID`.  `occurrence` is any
sortable value; we use `Int`. -/
structure ActRow : Type where
  ID : String
  activity : String
  occurrence : Int
  activity_ID : Val
deriving DecidableEq

/-- Helper for `firstSeen`: keeps the first occurrence of each element not
already in `seen`. -/
def firstSeenAux (seen : List String) : List String → List String
  | [] => []
  | a :: l => if a ∈ seen then firstSeenAux seen l else a :: firstSeenAux (a :: seen) l

/-- First-seen deduplication of a list (the semantics of
`Series.drop_duplicates` / first-seen label order). -/
def firstSeen (l : List String) : List String := firstSeenAux [] l

/-- `enumFromN n [a₀, a₁, …] = [(n, a₀), (n+1, a₁), …]` — the
`reset_index(drop=True).to_dict()` step, which keys the deduplicated labels
by their positional index. -/
def enumFromN : Nat → List String → List (Nat × String)
  | _, [] => []
  | n, a :: l => (n, a) :: enumFromN (n + 1) l

/-- Lexicographic code-point comparison of char lists (Python string `<=`). -/
def lexLe : List Char → List Char → Bool
  | [], _ => true
  | _ :: _, [] => false
  | a :: as, b :: bs => if a = b then lexLe as bs else Nat.blt a.toNat b.toNat

/-- Python string comparison `a <= b`, executable by kernel reduction. -/
def strLe (a b : String) : Prop := lexLe a.data b.data = true

instance : DecidableRel strLe := fun a b =>
  (inferInstance : Decidable (lexLe a.data b.data = true))

/-- `create_dicts` (`activities_class.py:76-97`): the activity map
`{0: label₀, 1: label₁, …}` over first-seen distinct labels, and the count
dictionary `groupby('activity')['ID'].nunique()` (labels in sorted order, as
pandas `groupby` sorts group keys; the value counts distinct session IDs). -/
def activities.create_dicts (tbl : List ActRow) : List (Nat × String) × List (String × Nat) :=
  let labels := firstSeen (tbl.map (fun r => r.activity))
  let activity_map := enumFromN 0 labels
  let activity_counts :=
    (List.insertionSort strLe labels).map
      (fun lab => (lab, (firstSeen ((tbl.filter (fun r => r.activity = lab)).map
        (fun r => r.ID))).length))
  (activity_map, activity_counts)

/-- The dict comprehension `{y: x for x, y in activity_map.items()}` read as
a lookup: the id paired with the *last* occurrence of the label wins (later
assignments override earlier ones). -/
def revLookup : List (Nat × String) → String → Option Nat
  | [], _ => none
  | p :: ps, lab =>
    match revLookup ps lab with
    | some i => some i
    | none => if p.2 = lab then some p.1 else none

/-- `map_activities` (`activities_class.py:99-119`): asserts that the number
of distinct labels equals the map's size, then fills `activity_ID` by the
reversed map; a label absent from the map maps to NaN (`Series.map` keeps
missing keys as NaN). -/
def activities.map_activities (tbl : List ActRow) (activity_map : List (Nat × String)) :
    Except String (List ActRow) :=
  if (firstSeen (tbl.map (fun r => r.activity))).length = activity_map.length then
    Except.ok (tbl.map (fun r =>
      { r with activity_ID :=
          match revLookup activity_map r.activity with
          | some i => Val.vInt i
          | none => Val.vNone }))
  else
    Except.error "Unique activities does not equal those specified in the activity_map."

/-- `sep.join(strings)` (Python `str.join`). -/
def joinSep (sep : String) : List String → String
  | [] => ""
  | [t] => t
  | t :: ts => t ++ sep ++ joinSep sep ts

/-- Does the char list `p` start the char list `s`? -/
def startsWithCL : List Char → List Char → Bool
  | [], _ => true
  | _ :: _, [] => false
  | c :: p, d :: s => c == d && startsWithCL p s

/-- Case-sensitive substring containment (`p in s` for Python strings). -/
def substrOf (p s : String) : Bool :=
  s.data.tails.any (fun suf => startsWithCL p.data suf)

/-- Matching of one regex alternative (a char-list pattern without `|`)
against a string suffix, anchored at its start.  Models the fragment of
Python `re` semantics this repository's patterns can exercise in the
development below: literal characters, `.` (any char), and the end-of-string
assertion `$`. -/
def reAtomsMatch : List Char → List Char → Bool
  | [], _ => true
  | '$' :: ps, s => s.isEmpty && reAtomsMatch ps s
  | '.' :: ps, _ :: s => reAtomsMatch ps s
  | '.' :: _, [] => false
  | c :: ps, d :: s => c == d && reAtomsMatch ps s
  | _ :: _, [] => false

/-- `re.search(pat, s)` for the modelled fragment: the pattern is a
top-level alternation on `|` (the source builds it by `'|'.join`), and the
search tries every start position of `s`. -/
def reSearchMini (pat s : String) : Bool :=
  s.data.tails.any (fun suf =>
    (pat.data.splitOn '|').any (fun alt => reAtomsMatch alt suf))

/-- `remove_activities` (`activities_class.py:52-74`): joins the drop
patterns with `'|'` and filters out rows whose `activity` matches the joined
pattern under `Series.str.contains(..., regex=True)` — i.e. `re.search`
semantics, passed in as `reSearch` since the regex engine is an external
library.  Asserts that at least one row survives. -/
def activities.remove_activities (reSearch : String → String → Bool) (tbl : List ActRow)
    (drop_activities : List String) : Except String (List ActRow) :=
  let pattern_list := joinSep "|" drop_activities
  let res := tbl.filter (fun r => ! reSearch pattern_list r.activity)
  if res.length > 0 then Except.ok res
  else Except.error "All activities matched those specified in drop_activities."

/-- `str(value)` as pandas' `astype(str)` renders an `activity_ID` cell in
the pipeline: integers print in decimal (the column is int64 when every
label was mapped), strings stay themselves, NaN prints as `"nan"`. -/
def valToStr : Val → String
  | Val.vInt n => toString n
  | Val.vStr s => s
  | Val.vNone => "nan"

/-- Ordering of rows by the `occurrence` column
(`sort_values('occurrence', ascending=True)`). -/
def occLe (a b : ActRow) : Prop := a.occurrence ≤ b.occurrence

instance : DecidableRel occLe := fun a b => Int.decLe a.occurrence b.occurrence

instance : IsTotal ActRow occLe := ⟨fun a b => Int.le_total a.occurrence b.occurrence⟩

instance : IsTrans ActRow occLe := ⟨fun _ _ _ h1 h2 => le_trans h1 h2⟩

/-- `[x[0] for x in itertools.groupby(seq)]`: collapse consecutive
duplicate tokens to a single occurrence. -/
def collapseRepeats : List String → List String
  | [] => []
  | [a] => [a]
  | a :: b :: l =>
    if a = b then collapseRepeats (b :: l) else a :: collapseRepeats (b :: l)

/-- One row of the sequence dataframe returned by `sequence`: the session
`ID` (the index), the token list, its length, and the whitespace-joined
string form. -/
structure SeqRow : Type where
  ID : String
  seq_list : List String
  step_num : Nat
  seq_str : String
deriving DecidableEq

/-- The post-state of `self` after `sequence` (`activities_class.py:143,149`):
the table is sorted in place by ascending occurrence
(`sort_values(..., inplace=True)`, modelled as a stable sort — the default
`kind='quicksort'` leaves tie order unspecified) and the `activity_ID`
column is cast to strings in place (`astype(str)`). -/
def activities.sequencePost (tbl : List ActRow) : List ActRow :=
  (List.insertionSort occLe tbl).map
    (fun r => { r with activity_ID := Val.vStr (valToStr r.activity_ID) })

/-- `sequence` (`activities_class.py:121-168`): sorts `self` by occurrence,
casts `activity_ID` to string, group-concatenates the tokens per session
`ID` (group keys in ascending order, as pandas `groupby` sorts them, group
members in frame order), optionally collapses consecutive repeats, drops
sequences shorter than `min_num`, and serializes each kept list to a
whitespace-joined string.  Returns the post-state of the mutated `self`
together with the sequence dataframe. -/
def activities.sequence (tbl : List ActRow) (min_num : Int) (remove_repeats : Bool) :
    List ActRow × List SeqRow :=
  let sorted := activities.sequencePost tbl
  let ids := List.insertionSort strLe (firstSeen (sorted.map (fun r => r.ID)))
  let grouped := ids.map (fun i =>
    let toks0 := (sorted.filter (fun r => r.ID = i)).map (fun r => valToStr r.activity_ID)
    (i, if remove_repeats then collapseRepeats toks0 else toks0))
  let kept := grouped.filter (fun p => min_num ≤ (p.2.length : Int))
  (sorted, kept.map (fun p =>
    { ID := p.1, seq_list := p.2, step_num := p.2.length, seq_str := joinSep " " p.2 }))

/-- Helper for `tokenizeWS`: splits a char list into its maximal
whitespace-free runs, carrying the current (reversed) run. -/
def splitWSAux : List Char → List Char → List (List Char)
  | cur, [] => if cur.isEmpty then [] else [cur.reverse]
  | cur, c :: cs =>
    if c.isWhitespace then
      if cur.isEmpty then splitWSAux [] cs else cur.reverse :: splitWSAux [] cs
    else splitWSAux (c :: cur) cs

/-- `nltk.tokenize.WhitespaceTokenizer().tokenize` (used at
`modeling.py:41-42`): the maximal whitespace-free runs of the string
(`re.findall` of `\S+`). -/
def tokenizeWS (s : String) : List String :=
  (splitWSAux [] s.data).map (fun cs => String.mk cs)

/-- `int(k)` on a decimal string (the `w2v_dict` keys are the decimal
activity-ID tokens; Python `int()` raises `ValueError` on anything that is
not a number, modelled by `none`). -/
def decToNat? (cs : List Char) : Option Nat :=
  if cs.isEmpty then none
  else if cs.all (fun c => c.isDigit) then
    some (cs.foldl (fun n c => 10 * n + (c.toNat - 48)) 0)
  else none

/-- Option-valued map over a list: `some` of the image when `f` succeeds on
every element, `none` as soon as one fails (a raised exception). -/
def mapOpt {A B : Type} (f : A → Option B) : List A → Option (List B)
  | [] => some []
  | a :: l =>
    match f a, mapOpt f l with
    | some b, some r => some (b :: r)
    | _, _ => none

/-- `{int(k): v for k, v in w2v_dict.items()}` (`modeling.py:75`). -/
def castKeys {V : Type} (w2v_dict : List (String × V)) : Option (List (Nat × V)) :=
  mapOpt (fun p => (decToNat? p.1.data).map (fun k => (k, p.2))) w2v_dict

/-- `collections.OrderedDict(sorted(d.items()))`: ascending key order (keys
are unique in a dict, so tuple comparison is key comparison). -/
def sortByKeyN {V : Type} (l : List (Nat × V)) : List (Nat × V) :=
  List.insertionSort (fun a b => a.1 ≤ b.1) l

/-- `merge_dicts` (`modeling.py:57-84`): asserts
`len(activity_map) >= len(w2v_dict)`, casts the embedding keys to integers,
sorts both dictionaries by key ascending and zips the *values* positionally
into a label → vector dictionary (`dict(zip(...))`; `zip` stops at the
shorter input). -/
def merge_dicts {V : Type} (activity_map : List (Nat × String))
    (w2v_dict : List (String × V)) : Except String (List (String × V)) :=
  if w2v_dict.length ≤ activity_map.length then
    match castKeys w2v_dict with
    | none => Except.error "ValueError: invalid literal for int()"
    | some wv =>
      let activity_map_sorted := sortByKeyN activity_map
      let w2v_dict_sorted := sortByKeyN wv
      Except.ok (List.zip (activity_map_sorted.map (fun p => p.2))
        (w2v_dict_sorted.map (fun p => p.2)))
  else
    Except.error "activity_map must contain the same number or more activity entries than w2v_dict."

/-- One row of the cluster dataframe handed to `add_volume`: the activity
label (the index) paired with the row's other columns, which `add_volume`
does not touch. -/
structure VolRow (α : Type) : Type where
  label : String
  features : α
  volume_pctl : Option ℚ

/-- Dict lookup `activity_counts[label]` as `Index.map` uses it: a missing
label becomes NaN (`none`). -/
def lookupCount (activity_counts : List (String × Nat)) (lab : String) : Option ℚ :=
  (activity_counts.lookup lab).map (fun n => (n : ℚ))

/-- `Series.rank(pct=True)` for one value of the column: the average-method
rank (count below, plus half-corrected count of equals) divided by the
number of non-NaN entries.  NaN entries are excluded from the ranking and
keep NaN (handled by the caller's `Option.map`). -/
def pctRank (col : List (Option ℚ)) (v : ℚ) : ℚ :=
  let present := col.filterMap id
  (((present.countP (fun w => decide (w < v))) : ℚ) +
      (((present.countP (fun w => decide (w = v))) : ℚ) + 1) / 2) /
    (present.length : ℚ)

/-- `add_volume` (`modeling.py:121-146`): asserts
`len(activity_counts) >= len(activity_cluster_df)`, maps the index through
the counts dictionary (missing labels become NaN), then replaces the raw
counts column by its percentile rank times 100. -/
def add_volume {α : Type} (activity_cluster_df : List (String × α))
    (activity_counts : List (String × Nat)) : Except String (List (VolRow α)) :=
  if activity_cluster_df.length ≤ activity_counts.length then
    Except.ok (activity_cluster_df.map (fun p =>
      { label := p.1, features := p.2,
        volume_pctl := (lookupCount activity_counts p.1).map
          (fun v => pctRank (activity_cluster_df.map
            (fun q => lookupCount activity_counts q.1)) v * 100) }))
  else
    Except.error "activity_counts must contain the same number or more activity entries than activity_cluster_df."

/-- One row of the dataframe handed to `dbscan_cluster`: the label index and
named numeric columns. -/
structure CRow : Type where
  idx : String
  cols : List (String × ℚ)
deriving DecidableEq

/-- `activity_cluster_df[cluster_dims]`: column selection; a missing column
raises `KeyError` (`none`). -/
def selectDims (df : List CRow) (dims : List String) : Option (List (List ℚ)) :=
  mapOpt (fun r => mapOpt (fun d => r.cols.lookup d) dims) df

/-- `dbscan_cluster` (`modeling.py:203-237`): selects the `cluster_dims`
columns, fits DBSCAN on them — the library call is the parameter
`fitLabels`, returning `clustering.labels_`, one integer label per input
row with `-1` as the noise sentinel — and assigns the labels as a new
`cluster` column on the input dataframe (in place: the returned table is
also the post-state of the argument). -/
def dbscan_cluster (fitLabels : List (List ℚ) → List Int) (df : List CRow)
    (cluster_dims : List String) : Except String (List CRow) :=
  match selectDims df cluster_dims with
  | none => Except.error "KeyError: cluster_dims not in dataframe"
  | some mat =>
    Except.ok ((df.zip (fitLabels mat)).map (fun p =>
      { p.1 with cols := p.1.cols ++ [("cluster", (p.2 : ℚ))] }))

/-- `create_corpus` (`activities_class.py:170-206`): optional activity
removal, dictionary construction, ID mapping, sequencing.  The `reSearch`
parameter is the external regex engine used by `remove_activities`. -/
def activities.create_corpus (reSearch : String → String → Bool) (tbl : List ActRow)
    (min_num : Int) (drop_activities : Option (List String))
    (remove_repeats : Bool) :
    Except String (List SeqRow × List (Nat × String) × List (String × Nat)) := do
  let activities_df ← match drop_activities with
    | some ds => activities.remove_activities reSearch tbl ds
    | none => pure tbl
  let (activity_map, activity_counts) := activities.create_dicts activities_df
  let mapped ← activities.map_activities activities_df activity_map
  pure ((activities.sequence mapped min_num remove_repeats).2, activity_map, activity_counts)

/-! ## Helper lemmas about repeat-collapsing -/

theorem collapseRepeats_cons_head (b : String) (t : List String) :
    ∃ u, collapseRepeats (b :: t) = b :: u := by
  induction t generalizing b with
  | nil => exact ⟨[], rfl⟩
  | cons c t ih =>
    by_cases h : b = c
    · subst h
      obtain ⟨u, hu⟩ := ih b
      exact ⟨u, by simp [collapseRepeats, hu]⟩
    · exact ⟨collapseRepeats (c :: t), by simp [collapseRepeats, h]⟩

theorem collapseRepeats_sublist (l : List String) :
    (collapseRepeats l).Sublist l := by
  induction l with
  | nil => simp [collapseRepeats]
  | cons a t ih =>
    cases t with
    | nil => simp [collapseRepeats]
    | cons b t' =>
      by_cases h : a = b
      · simpa [collapseRepeats, h] using ih.trans (List.sublist_cons_self a (b :: t'))
      · simpa [collapseRepeats, h] using List.Sublist.cons₂ a ih

theorem mem_collapseRepeats (l : List String) (x : String) :
    x ∈ collapseRepeats l ↔ x ∈ l := by
  constructor
  · exact fun hx => (collapseRepeats_sublist l).mem hx
  · intro hx
    induction l with
    | nil => simp at hx
    | cons a t ih =>
      cases t with
      | nil => simpa [collapseRepeats] using hx
      | cons b t' =>
        by_cases h : a = b
        · have hx2 : x ∈ b :: t' := by
            rcases List.mem_cons.mp hx with h1 | h2
            · exact h1 ▸ h ▸ List.mem_cons_self b t'
            · exact h2
          simpa [collapseRepeats, h] using ih hx2
        · rcases List.mem_cons.mp hx with h1 | h2
          · simp [collapseRepeats, h, h1]
          · simp [collapseRepeats, h]
            exact Or.inr (ih h2)

theorem collapseRepeats_chain (l : List String) :
    (collapseRepeats l).Chain' (fun a b => a ≠ b) := by
  induction l with
  | nil => simp [collapseRepeats]
  | cons a t ih =>
    cases t with
    | nil => simp [collapseRepeats]
    | cons b t' =>
      by_cases h : a = b
      · simpa [collapseRepeats, h] using ih
      · obtain ⟨u, hu⟩ := collapseRepeats_cons_head b t'
        have ih2 := ih
        rw [hu] at ih2
        simpa [collapseRepeats, h, hu] using List.Chain'.cons h ih2

theorem collapseRepeats_idem (l : List String) :
    collapseRepeats (collapseRepeats l) = collapseRepeats l := by
  induction l with
  | nil => simp [collapseRepeats]
  | cons a t ih =>
    cases t with
    | nil => simp [collapseRepeats]
    | cons b t' =>
      by_cases h : a = b
      · simpa [collapseRepeats, h] using ih
      · obtain ⟨u, hu⟩ := collapseRepeats_cons_head b t'
        have ih2 := ih
        rw [hu] at ih2
        simp [collapseRepeats, h, hu, ih2]

/-- C9: repeat-collapsing (the `remove_repeats` step of `sequence`,
`[x[0] for x in groupby(seq)]`) only removes tokens, never reorders them
(the result is a sublist of the input), keeps exactly the set of tokens
(it removes only duplicates), leaves no adjacent duplicates, and is
idempotent: collapsing an already-collapsed list yields the same list. -/
theorem C9_collapse_idempotent_order_preserving (l : List String) :
    (collapseRepeats l).Sublist l ∧
    (∀ x, x ∈ collapseRepeats l ↔ x ∈ l) ∧
    (collapseRepeats l).Chain' (fun a b => a ≠ b) ∧
    collapseRepeats (collapseRepeats l) = collapseRepeats l :=
  ⟨collapseRepeats_sublist l, mem_collapseRepeats l,
    collapseRepeats_chain l, collapseRepeats_idem l⟩

/-! ## Helper lemmas about sorted zipping (`merge_dicts`) -/

theorem zip_vals_mem {V : Type} :
    ∀ (A : List (Nat × String)) (W : List (Nat × V)),
      A.map Prod.fst = W.map Prod.fst →
      ∀ p ∈ A, ∃ v, (p.1, v) ∈ W ∧
        (p.2, v) ∈ List.zip (A.map (fun q => q.2)) (W.map (fun q => q.2)) := by
  intro A
  induction A with
  | nil => intro W _ p hp; simp at hp
  | cons a A ih =>
    intro W hk p hp
    cases W with
    | nil => simp at hk
    | cons w W' =>
      simp only [List.map_cons, List.cons.injEq] at hk
      rcases List.mem_cons.mp hp with h1 | h2
      · subst h1
        exact ⟨w.2, by simp [hk.1], by simp⟩
      · obtain ⟨v, hv1, hv2⟩ := ih W' hk.2 p h2
        exact ⟨v, List.mem_cons_of_mem w hv1, List.mem_cons_of_mem _ hv2⟩

theorem mapOpt_length {A B : Type} (f : A → Option B) :
    ∀ (l : List A) (r : List B), mapOpt f l = some r → r.length = l.length := by
  intro l
  induction l with
  | nil => intro r h; simp [mapOpt] at h; simp [← h]
  | cons a l ih =>
    intro r h
    simp only [mapOpt] at h
    cases hfa : f a with
    | none => rw [hfa] at h; simp at h
    | some b =>
      rw [hfa] at h
      cases hml : mapOpt f l with
      | none => rw [hml] at h; simp at h
      | some r' =>
        rw [hml] at h
        simp only [Option.some.injEq] at h
        simp [← h, ih r' hml]

theorem mapOpt_isSome {A B : Type} (f : A → Option B) :
    ∀ l : List A, (∀ a ∈ l, (f a).isSome = true) → ∃ r, mapOpt f l = some r := by
  intro l
  induction l with
  | nil => intro _; exact ⟨[], rfl⟩
  | cons a l ih =>
    intro h
    obtain ⟨b, hb⟩ := Option.isSome_iff_exists.mp (h a (List.mem_cons_self a l))
    obtain ⟨r, hr⟩ := ih (fun x hx => h x (List.mem_cons_of_mem a hx))
    exact ⟨b :: r, by simp [mapOpt, hb, hr]⟩

theorem keys_nodup_unique {V : Type} :
    ∀ (l : List (Nat × V)), (l.map Prod.fst).Nodup →
      ∀ {i : Nat} {v v' : V}, (i, v) ∈ l → (i, v') ∈ l → v = v' := by
  intro l
  induction l with
  | nil => intro _ i v v' h1; simp at h1
  | cons a l ih =>
    intro hn i v v' h1 h2
    simp only [List.map_cons, List.nodup_cons] at hn
    rcases List.mem_cons.mp h1 with e1 | m1
    · rcases List.mem_cons.mp h2 with e2 | m2
      · rw [← e1] at e2; exact (Prod.mk.injEq _ _ _ _ ▸ e2).2.symm
      · exfalso
        apply hn.1
        rw [← e1]
        exact List.mem_map.mpr ⟨(i, v'), m2, rfl⟩
    · rcases List.mem_cons.mp h2 with e2 | m2
      · exfalso
        apply hn.1
        rw [← e2]
        exact List.mem_map.mpr ⟨(i, v), m1, rfl⟩
      · exact ih hn.2 m1 m2

/-- C1 (corrected): when the two key sequences, sorted ascending, align —
and the embedding keys are unique — `merge_dicts` succeeds and pairs every
label with the vector trained for its own activity id.  (The original
claim's failure half is refuted by `C1_counterexample`: on misaligned keys
`merge_dicts` does not fail; it only checks the length inequality and then
zips positionally.) -/
theorem C1_merge_dicts_aligned {V : Type} (activity_map : List (Nat × String))
    (w2v_dict : List (String × V)) (wv : List (Nat × V))
    (hcast : castKeys w2v_dict = some wv)
    (hkeys : (sortByKeyN activity_map).map Prod.fst = (sortByKeyN wv).map Prod.fst)
    (hnodup : (wv.map Prod.fst).Nodup) :
    ∃ r, merge_dicts activity_map w2v_dict = Except.ok r ∧
      ∀ i lab v, (i, lab) ∈ activity_map → (i, v) ∈ wv → (lab, v) ∈ r := by
  have hcast' : mapOpt (fun p => (decToNat? p.1.data).map (fun k => (k, p.2))) w2v_dict
      = some wv := hcast
  have hwlen : wv.length = w2v_dict.length := mapOpt_length _ w2v_dict wv hcast'
  have hlen : w2v_dict.length ≤ activity_map.length := by
    have h1 := congrArg List.length hkeys
    simp only [List.length_map, sortByKeyN, List.length_insertionSort] at h1
    omega
  refine ⟨List.zip ((sortByKeyN activity_map).map (fun q => q.2))
      ((sortByKeyN wv).map (fun q => q.2)), ?_, ?_⟩
  · simp [merge_dicts, hlen, hcast]
  · intro i lab v ham hwv
    have hmem : (i, lab) ∈ sortByKeyN activity_map :=
      (List.perm_insertionSort _ activity_map).mem_iff.mpr ham
    obtain ⟨v', hv'W, hv'zip⟩ :=
      zip_vals_mem (sortByKeyN activity_map) (sortByKeyN wv) hkeys (i, lab) hmem
    have hvW : (i, v) ∈ sortByKeyN wv :=
      (List.perm_insertionSort _ wv).mem_iff.mpr hwv
    have hnodup' : ((sortByKeyN wv).map Prod.fst).Nodup :=
      (((List.perm_insertionSort _ wv).map Prod.fst).nodup_iff).mpr hnodup
    have hvv : v = v' := keys_nodup_unique _ hnodup' hvW hv'W
    rw [hvv]
    exact hv'zip

/-- C1 counterexample: an embedding dictionary whose sorted key sequence
`[1]` differs (in length and order) from the activity map's sorted key
sequence `[0, 1]` — as happens when a min-frequency cutoff drops id 0 —
does NOT make `merge_dicts` fail: it returns a mapping that pairs label
`"a"` (id 0) with the vector trained for id 1. -/
theorem C1_counterexample :
    (sortByKeyN [(0, "a"), (1, "b")]).map Prod.fst = [0, 1] ∧
    castKeys [("1", (42 : Nat))] = some [(1, 42)] ∧
    (sortByKeyN [(1, (42 : Nat))]).map Prod.fst = [1] ∧
    merge_dicts [(0, "a"), (1, "b")] [("1", (42 : Nat))] = Except.ok [("a", 42)] :=
  ⟨by decide, by rfl, by decide, by rfl⟩

/-- Witness for `C1_merge_dicts_aligned` at a concrete aligned input. -/
theorem C1_witness :
    ∃ r, merge_dicts [(0, "a"), (1, "b")] [("0", (10 : Nat)), ("1", 20)] = Except.ok r ∧
      ∀ i lab v, (i, lab) ∈ [(0, "a"), (1, "b")] →
        (i, v) ∈ [(0, (10 : Nat)), (1, 20)] → (lab, v) ∈ r :=
  C1_merge_dicts_aligned [(0, "a"), (1, "b")] [("0", (10 : Nat)), ("1", 20)]
    [(0, 10), (1, 20)] (by rfl) (by decide) (by decide)

/-- C3 (corrected): what `remove_activities` actually guarantees.  The rows
kept are exactly those whose label does *not* match the `'|'`-joined drop
pattern under the regex engine (`re.search` semantics — not substring
matching, see `C3_counterexample`), the result is never empty (the assert),
and in particular no surviving label matches the joined pattern. -/
theorem C3_remove_activities_regex (reSearch : String → String → Bool)
    (tbl : List ActRow) (drop_activities : List String) (res : List ActRow)
    (h : activities.remove_activities reSearch tbl drop_activities = Except.ok res) :
    res = tbl.filter (fun r => ! reSearch (joinSep "|" drop_activities) r.activity) ∧
    res ≠ [] ∧
    ∀ r ∈ res, reSearch (joinSep "|" drop_activities) r.activity = false := by
  simp only [activities.remove_activities] at h
  split at h
  case isTrue hc =>
    simp only [Except.ok.injEq] at h
    subst h
    refine ⟨rfl, ?_, ?_⟩
    · intro hnil
      rw [hnil] at hc
      simp at hc
    · intro r hr
      have hm := List.of_mem_filter hr
      simpa using hm
  case isFalse hc =>
    cases h

/-- C3 counterexample: with drop pattern `"a$"` (a regex metacharacter
pattern), the label `"a$b"` *contains* the pattern as a case-sensitive
substring, yet `remove_activities` keeps the row, because
`Series.str.contains(..., regex=True)` interprets `"a$"` as ‘ends with
`a`’, which `"a$b"` does not match. -/
theorem C3_counterexample :
    activities.remove_activities reSearchMini
        [⟨"s1", "a$b", 0, Val.vNone⟩, ⟨"s2", "zzz", 1, Val.vNone⟩] ["a$"] =
      Except.ok [⟨"s1", "a$b", 0, Val.vNone⟩, ⟨"s2", "zzz", 1, Val.vNone⟩] ∧
    substrOf "a$" "a$b" = true :=
  ⟨by rfl, by rfl⟩

/-- Witness for `C3_remove_activities_regex` at a concrete input. -/
theorem C3_witness :
    ([⟨"s2", "keep", 1, Val.vNone⟩] : List ActRow) =
      List.filter (fun r => ! reSearchMini (joinSep "|" ["x"]) r.activity)
        [⟨"s1", "xx", 0, Val.vNone⟩, ⟨"s2", "keep", 1, Val.vNone⟩] ∧
    ([⟨"s2", "keep", 1, Val.vNone⟩] : List ActRow) ≠ [] ∧
    ∀ r ∈ ([⟨"s2", "keep", 1, Val.vNone⟩] : List ActRow),
      reSearchMini (joinSep "|" ["x"]) r.activity = false :=
  C3_remove_activities_regex reSearchMini
    [⟨"s1", "xx", 0, Val.vNone⟩, ⟨"s2", "keep", 1, Val.vNone⟩] ["x"]
    [⟨"s2", "keep", 1, Val.vNone⟩] (by rfl)

/-- C4 (corrected): the stages do *not* leave their arguments unchanged —
`C4_counterexample` exhibits the mutation.  What holds instead: the
post-state of the table passed to `sequence` is its rows re-sorted in place
by ascending occurrence with the `activity_ID` column cast to strings
(a permutation of the cast rows, sorted, every cell a string), and the
post-state of the dataframe passed to `dbscan_cluster` — equal to its
return value, since the column assignment aliases the argument — differs
from the input whenever the frame is non-empty, by the appended `cluster`
column. -/
theorem C4_stages_mutate_amended (tbl : List ActRow) (min_num : Int) (rr : Bool)
    (fitLabels : List (List ℚ) → List Int) (df : List CRow) (dims : List String)
    (mat : List (List ℚ)) (hsel : selectDims df dims = some mat)
    (hfit : (fitLabels mat).length = df.length) (hdf : df ≠ []) :
    ((activities.sequence tbl min_num rr).1.Perm
        (tbl.map (fun r => { r with activity_ID := Val.vStr (valToStr r.activity_ID) })) ∧
      List.Sorted occLe (activities.sequence tbl min_num rr).1 ∧
      ∀ r ∈ (activities.sequence tbl min_num rr).1, ∃ s, r.activity_ID = Val.vStr s) ∧
    ∀ out, dbscan_cluster fitLabels df dims = Except.ok out → out ≠ df := by
  constructor
  · refine ⟨?_, ?_, ?_⟩
    · exact (List.perm_insertionSort occLe tbl).map _
    · exact List.pairwise_map.mpr (List.sorted_insertionSort occLe tbl)
    · intro r hr
      obtain ⟨r0, _, hr0⟩ := List.mem_map.mp hr
      exact ⟨valToStr r0.activity_ID, by rw [← hr0]⟩
  · intro out hout heq
    simp only [dbscan_cluster, hsel, Except.ok.injEq] at hout
    rw [heq] at hout
    cases df with
    | nil => exact hdf rfl
    | cons r rest =>
      cases hks : fitLabels mat with
      | nil => rw [hks] at hfit; simp at hfit
      | cons k ks =>
        rw [hks] at hout
        simp only [List.zip_cons_cons, List.map_cons, List.cons.injEq] at hout
        have hcols := congrArg (fun c => c.cols.length) hout.1
        simp at hcols

/-- C4 counterexample: `sequence` does not leave the table it was called on
unchanged — on a table whose two rows are out of occurrence order, the
post-state has the rows re-ordered and the `activity_ID` cells turned into
strings — and `dbscan_cluster` returns its input frame with the `cluster`
column appended in place, so the argument does not stay without it. -/
theorem C4_counterexample :
    (activities.sequence [⟨"s", "x", 2, Val.vInt 0⟩, ⟨"s", "y", 1, Val.vInt 1⟩] 1 true).1 ≠
      [⟨"s", "x", 2, Val.vInt 0⟩, ⟨"s", "y", 1, Val.vInt 1⟩] ∧
    dbscan_cluster (fun m => m.map (fun _ => (-1 : Int))) [⟨"a", [("x", 1)]⟩] ["x"] =
      Except.ok [⟨"a", [("x", 1), ("cluster", ((-1 : Int) : ℚ))]⟩] ∧
    ([⟨"a", [("x", 1), ("cluster", ((-1 : Int) : ℚ))]⟩] : List CRow) ≠ [⟨"a", [("x", 1)]⟩] :=
  ⟨by decide, by rfl, by decide⟩

/-- Witness for `C4_stages_mutate_amended` at concrete inputs. -/
theorem C4_witness :
    ((activities.sequence [⟨"s", "x", 2, Val.vInt 0⟩] 1 true).1.Perm
        (([⟨"s", "x", 2, Val.vInt 0⟩] : List ActRow).map
          (fun r => { r with activity_ID := Val.vStr (valToStr r.activity_ID) })) ∧
      List.Sorted occLe (activities.sequence [⟨"s", "x", 2, Val.vInt 0⟩] 1 true).1 ∧
      ∀ r ∈ (activities.sequence [⟨"s", "x", 2, Val.vInt 0⟩] 1 true).1,
        ∃ s, r.activity_ID = Val.vStr s) ∧
    ∀ out, dbscan_cluster (fun m => m.map (fun _ => (-1 : Int)))
        [⟨"a", [("x", 1)]⟩] ["x"] = Except.ok out → out ≠ [⟨"a", [("x", 1)]⟩] :=
  C4_stages_mutate_amended [⟨"s", "x", 2, Val.vInt 0⟩] 1 true
    (fun m => m.map (fun _ => (-1 : Int))) [⟨"a", [("x", 1)]⟩] ["x"] [[1]]
    (by rfl) (by rfl) (by decide)

/-- C6 (corrected): `add_volume` only asserts the length inequality
`len(activity_counts) >= len(table)`; when that passes it always succeeds,
and a label missing from `activity_counts` silently receives NaN (`none`)
in `volume_pctl` — there is no coverage check (`C6_counterexample`). -/
theorem C6_add_volume_silent_nan {α : Type} (df : List (String × α))
    (activity_counts : List (String × Nat))
    (hlen : df.length ≤ activity_counts.length) :
    ∃ res, add_volume df activity_counts = Except.ok res ∧ res.length = df.length ∧
      ∀ v ∈ res, lookupCount activity_counts v.label = none → v.volume_pctl = none := by
  unfold add_volume
  rw [if_pos hlen]
  refine ⟨_, rfl, by simp, ?_⟩
  intro v hv hnone
  obtain ⟨p, _, hpv⟩ := List.mem_map.mp hv
  rw [← hpv] at hnone ⊢
  simp only at hnone ⊢
  rw [hnone]
  rfl

/-- C6 counterexample: `activity_counts = {"b": 2}` does not cover the
label `"a"` of the one-row table, yet `add_volume` succeeds (the length
check `1 >= 1` passes) and propagates NaN into `volume_pctl`. -/
theorem C6_counterexample :
    add_volume [("a", (0 : Nat))] [("b", 2)] =
      Except.ok [{ label := "a", features := 0, volume_pctl := none }] ∧
    lookupCount [("b", 2)] "a" = none :=
  ⟨by rfl, by rfl⟩

/-- Witness for `C6_add_volume_silent_nan` at a concrete input. -/
theorem C6_witness :
    ∃ res, add_volume [("a", (0 : Nat))] [("b", 2)] = Except.ok res ∧
      res.length = ([("a", (0 : Nat))] : List (String × Nat)).length ∧
      ∀ v ∈ res, lookupCount [("b", 2)] v.label = none → v.volume_pctl = none :=
  C6_add_volume_silent_nan [("a", (0 : Nat))] [("b", 2)] (by decide)

/-- Forall₂ shape of the zip-append step of `dbscan_cluster`. -/
theorem zip_append_forall₂ :
    ∀ (l : List CRow) (ks : List Int), l.length ≤ ks.length →
      List.Forall₂ (fun r o => o.idx = r.idx ∧
          ∃ k : Int, o.cols = r.cols ++ [("cluster", (k : ℚ))])
        l ((l.zip ks).map
          (fun p => { p.1 with cols := p.1.cols ++ [("cluster", (p.2 : ℚ))] })) := by
  intro l
  induction l with
  | nil => intro ks _; exact List.Forall₂.nil
  | cons r rest ih =>
    intro ks hk
    cases ks with
    | nil => simp at hk
    | cons k ks' =>
      simp only [List.zip_cons_cons, List.map_cons]
      exact List.Forall₂.cons ⟨rfl, k, rfl⟩ (ih ks' (by simpa using hk))

/-- C8 (confirmed): given the DBSCAN contract — one integer label per input
row (`-1` marking noise) — `dbscan_cluster` returns a table with exactly
the input's rows: equal row count, each output row its input row with the
same index and columns, plus the single appended integer `cluster` column. -/
theorem C8_dbscan_preserves_rows (fitLabels : List (List ℚ) → List Int)
    (df : List CRow) (cluster_dims : List String) (mat : List (List ℚ))
    (hsel : selectDims df cluster_dims = some mat)
    (hfit : (fitLabels mat).length = df.length) :
    ∃ out, dbscan_cluster fitLabels df cluster_dims = Except.ok out ∧
      out.length = df.length ∧
      List.Forall₂ (fun r o => o.idx = r.idx ∧
        ∃ k : Int, o.cols = r.cols ++ [("cluster", (k : ℚ))]) df out := by
  refine ⟨(df.zip (fitLabels mat)).map
    (fun p => { p.1 with cols := p.1.cols ++ [("cluster", (p.2 : ℚ))] }), ?_, ?_, ?_⟩
  · simp [dbscan_cluster, hsel]
  · simp [List.length_zip, hfit]
  · exact zip_append_forall₂ df (fitLabels mat) (by omega)

/-- Witness for `C8_dbscan_preserves_rows` at a concrete input. -/
theorem C8_witness :
    ∃ out, dbscan_cluster (fun m => m.map (fun _ => (-1 : Int)))
        [⟨"login", [("x", 1), ("y", 2)]⟩] ["x", "y"] = Except.ok out ∧
      out.length = ([⟨"login", [("x", 1), ("y", 2)]⟩] : List CRow).length ∧
      List.Forall₂ (fun r o => o.idx = r.idx ∧
        ∃ k : Int, o.cols = r.cols ++ [("cluster", (k : ℚ))])
        ([⟨"login", [("x", 1), ("y", 2)]⟩] : List CRow) out :=
  C8_dbscan_preserves_rows (fun m => m.map (fun _ => (-1 : Int)))
    [⟨"login", [("x", 1), ("y", 2)]⟩] ["x", "y"] [[1, 2]] (by rfl) (by rfl)

/-! ## Helper lemmas about `firstSeen`, `enumFromN` and `revLookup` -/

theorem mem_firstSeenAux :
    ∀ (l seen : List String) (x : String),
      x ∈ firstSeenAux seen l ↔ (x ∈ l ∧ x ∉ seen) := by
  intro l
  induction l with
  | nil => intro seen x; simp [firstSeenAux]
  | cons a l ih =>
    intro seen x
    by_cases h : a ∈ seen
    · rw [firstSeenAux, if_pos h, ih seen x]
      constructor
      · rintro ⟨hx, hns⟩
        exact ⟨List.mem_cons_of_mem a hx, hns⟩
      · rintro ⟨hx, hns⟩
        rcases List.mem_cons.mp hx with h1 | h2
        · exact absurd (h1 ▸ h) hns
        · exact ⟨h2, hns⟩
    · rw [firstSeenAux, if_neg h]
      constructor
      · intro hx
        rcases List.mem_cons.mp hx with h1 | h2
        · exact ⟨h1 ▸ List.mem_cons_self a l, h1 ▸ h⟩
        · have h3 := (ih (a :: seen) x).mp h2
          exact ⟨List.mem_cons_of_mem a h3.1,
            fun hs => h3.2 (List.mem_cons_of_mem a hs)⟩
      · rintro ⟨hx, hns⟩
        rcases List.mem_cons.mp hx with h1 | h2
        · exact h1 ▸ List.mem_cons_self a _
        · by_cases hxa : x = a
          · exact hxa ▸ List.mem_cons_self a _
          · refine List.mem_cons_of_mem a ((ih (a :: seen) x).mpr ⟨h2, ?_⟩)
            simp [List.mem_cons, hxa, hns]

theorem nodup_firstSeenAux :
    ∀ (l seen : List String), (firstSeenAux seen l).Nodup := by
  intro l
  induction l with
  | nil => intro seen; simp [firstSeenAux]
  | cons a l ih =>
    intro seen
    by_cases h : a ∈ seen
    · rw [firstSeenAux, if_pos h]
      exact ih seen
    · rw [firstSeenAux, if_neg h]
      refine List.nodup_cons.mpr ⟨?_, ih (a :: seen)⟩
      intro hmem
      exact ((mem_firstSeenAux l (a :: seen) a).mp hmem).2 (List.mem_cons_self a seen)

theorem mem_firstSeen (l : List String) (x : String) : x ∈ firstSeen l ↔ x ∈ l := by
  rw [firstSeen, mem_firstSeenAux]
  simp

theorem nodup_firstSeen (l : List String) : (firstSeen l).Nodup :=
  nodup_firstSeenAux l []

theorem enumFromN_map_snd : ∀ (n : Nat) (l : List String),
    (enumFromN n l).map Prod.snd = l := by
  intro n l
  induction l generalizing n with
  | nil => rfl
  | cons a l ih => simp [enumFromN, ih]

theorem enumFromN_length : ∀ (n : Nat) (l : List String),
    (enumFromN n l).length = l.length := by
  intro n l
  induction l generalizing n with
  | nil => rfl
  | cons a l ih => simp [enumFromN, ih]

theorem enumFromN_key_ge : ∀ (n : Nat) (l : List String) (i : Nat) (a : String),
    (i, a) ∈ enumFromN n l → n ≤ i := by
  intro n l
  induction l generalizing n with
  | nil => intro i a h; simp [enumFromN] at h
  | cons b l ih =>
    intro i a h
    rcases List.mem_cons.mp h with h1 | h2
    · have : i = n := congrArg Prod.fst h1
      omega
    · have := ih (n + 1) i a h2
      omega

theorem enumFromN_keys_nodup : ∀ (n : Nat) (l : List String),
    ((enumFromN n l).map Prod.fst).Nodup := by
  intro n l
  induction l generalizing n with
  | nil => simp [enumFromN]
  | cons b l ih =>
    simp only [enumFromN, List.map_cons, List.nodup_cons]
    refine ⟨?_, ih (n + 1)⟩
    intro hmem
    obtain ⟨⟨i, a⟩, hpa, hpi⟩ := List.mem_map.mp hmem
    have := enumFromN_key_ge (n + 1) l i a hpa
    omega

theorem enumFromN_lookup : ∀ (n : Nat) (l : List String) (i : Nat) (a : String),
    (i, a) ∈ enumFromN n l → (enumFromN n l).lookup i = some a := by
  intro n l
  induction l generalizing n with
  | nil => intro i a h; simp [enumFromN] at h
  | cons b l ih =>
    intro i a h
    rcases List.mem_cons.mp h with h1 | h2
    · have hi : i = n := congrArg Prod.fst h1
      have ha : a = b := congrArg Prod.snd h1
      simp [enumFromN, List.lookup, hi, ha]
    · have hge := enumFromN_key_ge (n + 1) l i a h2
      have hne : (i == n) = false := by
        simp only [beq_eq_false_iff_ne, ne_eq]
        omega
      simp [enumFromN, List.lookup, hne, ih (n + 1) i a h2]

theorem revLookup_none : ∀ (ps : List (Nat × String)) (a : String),
    a ∉ ps.map Prod.snd → revLookup ps a = none := by
  intro ps
  induction ps with
  | nil => intro a _; rfl
  | cons p ps ih =>
    intro a ha
    simp only [List.map_cons, List.mem_cons] at ha
    push_neg at ha
    simp only [revLookup, ih a ha.2]
    exact if_neg (fun h => ha.1 h.symm)

theorem revLookup_enumFromN : ∀ (n : Nat) (l : List String) (a : String),
    a ∈ l → ∃ i, revLookup (enumFromN n l) a = some i ∧ (i, a) ∈ enumFromN n l := by
  intro n l
  induction l generalizing n with
  | nil => intro a h; simp at h
  | cons b l ih =>
    intro a ha
    by_cases hat : a ∈ l
    · obtain ⟨i, hrev, hmem⟩ := ih (n + 1) a hat
      exact ⟨i, by simp [enumFromN, revLookup, hrev], List.mem_cons_of_mem _ hmem⟩
    · have hab : a = b := by
        rcases List.mem_cons.mp ha with h1 | h2
        · exact h1
        · exact absurd h2 hat
      have hnone : revLookup (enumFromN (n + 1) l) a = none :=
        revLookup_none _ a (by rw [enumFromN_map_snd]; exact hat)
      refine ⟨n, ?_, by simp [enumFromN, hab]⟩
      rw [enumFromN, revLookup, hnone]
      simp [hab]

/-- C5 (confirmed): dictionary construction followed by ID assignment is a
bijective round trip.  `create_dicts` (a pure function of the table, hence
deterministic for a fixed input order) yields an activity map with
pairwise-distinct integer keys and pairwise-distinct labels, and
`map_activities` applied to the same table succeeds and assigns every row
an integer `activity_ID` that decodes through the map to exactly that
row's original activity label. -/
theorem C5_dicts_bijective_roundtrip (tbl : List ActRow) :
    (((activities.create_dicts tbl).1.map Prod.fst).Nodup ∧
      ((activities.create_dicts tbl).1.map Prod.snd).Nodup) ∧
    ∃ tbl2, activities.map_activities tbl (activities.create_dicts tbl).1 = Except.ok tbl2 ∧
      List.Forall₂ (fun r r2 => r2.ID = r.ID ∧ r2.activity = r.activity ∧
        r2.occurrence = r.occurrence ∧
        ∃ i : Nat, r2.activity_ID = Val.vInt i ∧
          (activities.create_dicts tbl).1.lookup i = some r.activity) tbl tbl2 := by
  have hmap : (activities.create_dicts tbl).1
      = enumFromN 0 (firstSeen (tbl.map (fun r => r.activity))) := rfl
  constructor
  · constructor
    · rw [hmap]
      exact enumFromN_keys_nodup 0 _
    · rw [hmap, enumFromN_map_snd]
      exact nodup_firstSeen _
  · have hcond : (firstSeen (tbl.map (fun r => r.activity))).length
        = (activities.create_dicts tbl).1.length := by
      rw [hmap, enumFromN_length]
    refine ⟨tbl.map (fun r =>
      { r with activity_ID :=
          match revLookup (activities.create_dicts tbl).1 r.activity with
          | some i => Val.vInt i
          | none => Val.vNone }), ?_, ?_⟩
    · unfold activities.map_activities
      rw [if_pos hcond]
    · rw [List.forall₂_map_right_iff, List.forall₂_same]
      intro r hr
      refine ⟨rfl, rfl, rfl, ?_⟩
      have hlab : r.activity ∈ firstSeen (tbl.map (fun q => q.activity)) := by
        rw [mem_firstSeen]
        exact List.mem_map.mpr ⟨r, hr, rfl⟩
      obtain ⟨i, hrev, hmem⟩ := revLookup_enumFromN 0 _ r.activity hlab
      refine ⟨i, ?_, ?_⟩
      · show (match revLookup (activities.create_dicts tbl).1 r.activity with
            | some k => Val.vInt (k : Int)
            | none => Val.vNone) = Val.vInt (i : Int)
        rw [hmap, hrev]
      · rw [hmap]
        exact enumFromN_lookup 0 _ i r.activity hmem

/-! ## Helper lemmas about percentile ranking (`add_volume`) -/

theorem countP_lt_add_eq_le (P : List ℚ) (v : ℚ) :
    P.countP (fun w => decide (w < v)) + P.countP (fun w => decide (w = v))
      ≤ P.length := by
  induction P with
  | nil => simp
  | cons a P ih =>
    simp only [List.countP_cons, List.length_cons]
    by_cases h2 : a = v
    · subst h2
      simp [lt_irrefl]; omega
    · by_cases h1 : a < v
      · simp [h1, h2]; omega
      · simp [h1, h2]; omega

theorem countP_lt_mono (P : List ℚ) (v w : ℚ) (hvw : v < w) :
    P.countP (fun x => decide (x < v)) + P.countP (fun x => decide (x = v))
      ≤ P.countP (fun x => decide (x < w)) := by
  induction P with
  | nil => simp
  | cons a P ih =>
    simp only [List.countP_cons]
    by_cases h2 : a = v
    · subst h2
      simp [lt_irrefl, hvw]; omega
    · by_cases h1 : a < v
      · simp [h1, h2, lt_trans h1 hvw]; omega
      · by_cases h3 : a < w
        · simp [h1, h2, h3]; omega
        · simp [h1, h2, h3]; omega

theorem pctRank_bounds (raw : List (Option ℚ)) (c : ℚ)
    (hc : c ∈ raw.filterMap id) :
    0 ≤ pctRank raw c * 100 ∧ pctRank raw c * 100 ≤ 100 := by
  simp only [pctRank]
  set P := raw.filterMap id with hP
  have hn : 0 < P.length := List.length_pos.mpr (List.ne_nil_of_mem hc)
  have hnq : (0 : ℚ) < (P.length : ℚ) := by exact_mod_cast hn
  have heq1 : 0 < P.countP (fun w => decide (w = c)) :=
    List.countP_pos_iff.mpr ⟨c, hc, by simp⟩
  have hle := countP_lt_add_eq_le P c
  constructor
  · positivity
  · have hrank : ((P.countP (fun w => decide (w < c)) : ℚ) +
        ((P.countP (fun w => decide (w = c)) : ℚ) + 1) / 2) ≤ (P.length : ℚ) := by
      have h1 : (P.countP (fun w => decide (w < c)) : ℚ) +
          (P.countP (fun w => decide (w = c)) : ℚ) ≤ (P.length : ℚ) := by
        exact_mod_cast hle
      have h2 : (1 : ℚ) ≤ (P.countP (fun w => decide (w = c)) : ℚ) := by
        exact_mod_cast heq1
      linarith
    have hdiv := (div_le_one hnq).mpr hrank
    have hmul := mul_le_mul_of_nonneg_right hdiv (by norm_num : (0 : ℚ) ≤ 100)
    simpa using hmul

theorem pctRank_mono (raw : List (Option ℚ)) (cv cw : ℚ)
    (hv : cv ∈ raw.filterMap id) (hlt : cv < cw) :
    pctRank raw cv * 100 ≤ pctRank raw cw * 100 := by
  simp only [pctRank]
  set P := raw.filterMap id with hP
  have hn : 0 < P.length := List.length_pos.mpr (List.ne_nil_of_mem hv)
  have hnq : (0 : ℚ) < (P.length : ℚ) := by exact_mod_cast hn
  have heq1 : 0 < P.countP (fun w => decide (w = cv)) :=
    List.countP_pos_iff.mpr ⟨cv, hv, by simp⟩
  have hmono := countP_lt_mono P cv cw hlt
  have hrank : ((P.countP (fun w => decide (w < cv)) : ℚ) +
      ((P.countP (fun w => decide (w = cv)) : ℚ) + 1) / 2) ≤
      ((P.countP (fun w => decide (w < cw)) : ℚ) +
      ((P.countP (fun w => decide (w = cw)) : ℚ) + 1) / 2) := by
    have h1 : (P.countP (fun w => decide (w < cv)) : ℚ) +
        (P.countP (fun w => decide (w = cv)) : ℚ) ≤
        (P.countP (fun w => decide (w < cw)) : ℚ) := by
      exact_mod_cast hmono
    have h2 : (1 : ℚ) ≤ (P.countP (fun w => decide (w = cv)) : ℚ) := by
      exact_mod_cast heq1
    have h3 : (0 : ℚ) ≤ (P.countP (fun w => decide (w = cw)) : ℚ) := by positivity
    linarith
  have hdiv : ((P.countP (fun w => decide (w < cv)) : ℚ) +
      ((P.countP (fun w => decide (w = cv)) : ℚ) + 1) / 2) / (P.length : ℚ) ≤
      ((P.countP (fun w => decide (w < cw)) : ℚ) +
      ((P.countP (fun w => decide (w = cw)) : ℚ) + 1) / 2) / (P.length : ℚ) := by
    gcongr
  exact mul_le_mul_of_nonneg_right hdiv (by norm_num)

/-- C7 (confirmed): when `activity_counts` covers every label of the table,
`add_volume` succeeds, every `volume_pctl` value lies in `[0, 100]`, and the
percentiles are monotone in the underlying counts: a strictly higher count
gets a rank at least as large. -/
theorem C7_add_volume_pctl_bounds_mono {α : Type} (df : List (String × α))
    (activity_counts : List (String × Nat))
    (hlen : df.length ≤ activity_counts.length)
    (hcov : ∀ p ∈ df, (lookupCount activity_counts p.1).isSome = true) :
    ∃ res, add_volume df activity_counts = Except.ok res ∧
      (∀ v ∈ res, ∃ q, v.volume_pctl = some q ∧ 0 ≤ q ∧ q ≤ 100) ∧
      (∀ v ∈ res, ∀ w ∈ res, ∀ cv cw : ℚ,
        lookupCount activity_counts v.label = some cv →
        lookupCount activity_counts w.label = some cw → cv < cw →
        ∀ qv qw, v.volume_pctl = some qv → w.volume_pctl = some qw → qv ≤ qw) := by
  unfold add_volume
  rw [if_pos hlen]
  refine ⟨_, rfl, ?_, ?_⟩
  · intro v hv
    obtain ⟨p, hp, hpv⟩ := List.mem_map.mp hv
    obtain ⟨c, hc⟩ := Option.isSome_iff_exists.mp (hcov p hp)
    have hcmem : c ∈ (df.map (fun q => lookupCount activity_counts q.1)).filterMap id :=
      List.mem_filterMap.mpr ⟨some c, List.mem_map.mpr ⟨p, hp, hc⟩, rfl⟩
    have hb := pctRank_bounds (df.map (fun q => lookupCount activity_counts q.1)) c hcmem
    refine ⟨pctRank (df.map (fun q => lookupCount activity_counts q.1)) c * 100,
      ?_, hb.1, hb.2⟩
    rw [← hpv, hc]
    rfl
  · intro v hv w hw cv cw hcv hcw hlt qv qw hqv hqw
    obtain ⟨p, hp, hpv⟩ := List.mem_map.mp hv
    obtain ⟨r, hr, hrw⟩ := List.mem_map.mp hw
    have hvl : v.label = p.1 := by rw [← hpv]
    have hwl : w.label = r.1 := by rw [← hrw]
    rw [hvl] at hcv
    rw [hwl] at hcw
    have hqv2 : v.volume_pctl
        = some (pctRank (df.map (fun q => lookupCount activity_counts q.1)) cv * 100) := by
      rw [← hpv, hcv]
      rfl
    have hqw2 : w.volume_pctl
        = some (pctRank (df.map (fun q => lookupCount activity_counts q.1)) cw * 100) := by
      rw [← hrw, hcw]
      rfl
    have hqv3 : qv = pctRank (df.map (fun q => lookupCount activity_counts q.1)) cv * 100 :=
      Option.some.inj (hqv.symm.trans hqv2)
    have hqw3 : qw = pctRank (df.map (fun q => lookupCount activity_counts q.1)) cw * 100 :=
      Option.some.inj (hqw.symm.trans hqw2)
    have hcvmem : cv ∈ (df.map (fun q => lookupCount activity_counts q.1)).filterMap id :=
      List.mem_filterMap.mpr ⟨some cv, List.mem_map.mpr ⟨p, hp, hcv⟩, rfl⟩
    have hmono := pctRank_mono (df.map (fun q => lookupCount activity_counts q.1)) cv cw hcvmem hlt
    rw [hqv3, hqw3]
    exact hmono

/-- Witness for `C7_add_volume_pctl_bounds_mono` at a concrete input. -/
theorem C7_witness :
    ∃ res, add_volume [("a", (0 : Nat)), ("b", 0)] [("a", 1), ("b", 2)] = Except.ok res ∧
      (∀ v ∈ res, ∃ q, v.volume_pctl = some q ∧ 0 ≤ q ∧ q ≤ 100) ∧
      (∀ v ∈ res, ∀ w ∈ res, ∀ cv cw : ℚ,
        lookupCount [("a", 1), ("b", 2)] v.label = some cv →
        lookupCount [("a", 1), ("b", 2)] w.label = some cw → cv < cw →
        ∀ qv qw, v.volume_pctl = some qv → w.volume_pctl = some qw → qv ≤ qw) :=
  C7_add_volume_pctl_bounds_mono [("a", (0 : Nat)), ("b", 0)] [("a", 1), ("b", 2)]
    (by decide) (by decide)

/-! ## Helper lemmas about whitespace tokenization (`seq_str` / `skip_grams`) -/

theorem splitWSAux_run :
    ∀ (t rest cur : List Char), (∀ c ∈ t, c.isWhitespace = false) →
      splitWSAux cur (t ++ rest) = splitWSAux (t.reverse ++ cur) rest := by
  intro t
  induction t with
  | nil => intro rest cur _; simp
  | cons c t ih =>
    intro rest cur h
    have hc : c.isWhitespace = false := h c (List.mem_cons_self c t)
    simp only [List.cons_append, splitWSAux, hc, Bool.false_eq_true, if_false,
      List.append_eq]
    rw [ih rest (c :: cur) (fun d hd => h d (List.mem_cons_of_mem c hd))]
    simp [List.append_assoc]

theorem splitWSAux_space (cur rest : List Char) :
    splitWSAux cur (' ' :: rest) =
      if cur.isEmpty then splitWSAux [] rest
      else cur.reverse :: splitWSAux [] rest := rfl

theorem splitWS_single (t : List Char) (hne : t ≠ [])
    (h : ∀ c ∈ t, c.isWhitespace = false) :
    splitWSAux [] t = [t] := by
  have h2 := splitWSAux_run t [] [] h
  rw [List.append_nil, List.append_nil] at h2
  rw [h2, splitWSAux]
  have hrev : t.reverse ≠ [] := by simpa using hne
  simp [List.isEmpty_iff, hrev]

theorem mk_data (s : String) : String.mk s.data = s := rfl

theorem tokenizeWS_joinSep :
    ∀ ts : List String,
      (∀ t ∈ ts, t.data ≠ [] ∧ ∀ c ∈ t.data, c.isWhitespace = false) →
      tokenizeWS (joinSep " " ts) = ts := by
  intro ts
  induction ts with
  | nil => intro _; rfl
  | cons t ts ih =>
    intro h
    cases ts with
    | nil =>
      have ht := h t (by simp)
      simp only [joinSep, tokenizeWS]
      rw [splitWS_single t.data ht.1 ht.2]
      simp [mk_data]
    | cons t2 ts2 =>
      have ht := h t (by simp)
      simp only [joinSep, tokenizeWS]
      have hdata : (t ++ " " ++ joinSep " " (t2 :: ts2)).data
          = t.data ++ (' ' :: (joinSep " " (t2 :: ts2)).data) := by
        rw [String.data_append, String.data_append]
        simp
      rw [hdata, splitWSAux_run t.data (' ' :: (joinSep " " (t2 :: ts2)).data) [] ht.2,
        List.append_nil, splitWSAux_space]
      have hne : t.data.reverse.isEmpty = false := by
        simp [List.isEmpty_iff, ht.1]
      rw [hne]
      simp only [Bool.false_eq_true, if_false, List.map_cons, List.reverse_reverse, mk_data]
      have ih2 := ih (fun x hx => h x (List.mem_cons_of_mem t hx))
      simp only [tokenizeWS] at ih2
      rw [ih2]

theorem digitChar_not_ws (n : Nat) : (Nat.digitChar n).isWhitespace = false := by
  rcases Nat.lt_or_ge n 16 with h | h
  · interval_cases n <;> decide
  · unfold Nat.digitChar
    repeat rw [if_neg (by omega)]
    decide

theorem toDigitsCore_step (fuel n : Nat) (ds : List Char) :
    Nat.toDigitsCore 10 (fuel + 1) n ds
      = if n / 10 = 0 then Nat.digitChar (n % 10) :: ds
        else Nat.toDigitsCore 10 fuel (n / 10) (Nat.digitChar (n % 10) :: ds) := rfl

theorem toDigitsCore_not_ws :
    ∀ (fuel n : Nat) (ds : List Char), (∀ c ∈ ds, c.isWhitespace = false) →
      ∀ c ∈ Nat.toDigitsCore 10 fuel n ds, c.isWhitespace = false := by
  intro fuel
  induction fuel with
  | zero =>
    intro n ds h c hc
    exact h c hc
  | succ fuel ih =>
    intro n ds h c hc
    rw [toDigitsCore_step] at hc
    by_cases h0 : n / 10 = 0
    · rw [if_pos h0] at hc
      rcases List.mem_cons.mp hc with h1 | h2
      · rw [h1]
        exact digitChar_not_ws _
      · exact h c h2
    · rw [if_neg h0] at hc
      refine ih (n / 10) (Nat.digitChar (n % 10) :: ds) ?_ c hc
      intro d hd
      rcases List.mem_cons.mp hd with h1 | h2
      · rw [h1]
        exact digitChar_not_ws _
      · exact h d h2

theorem toDigitsCore_succ_len :
    ∀ (fuel n : Nat) (ds : List Char),
      ds.length + 1 ≤ (Nat.toDigitsCore 10 (fuel + 1) n ds).length := by
  intro fuel
  induction fuel with
  | zero =>
    intro n ds
    rw [toDigitsCore_step]
    by_cases h0 : n / 10 = 0
    · rw [if_pos h0]
      simp
    · rw [if_neg h0]
      show ds.length + 1 ≤ (Nat.digitChar (n % 10) :: ds).length
      simp
  | succ fuel ih =>
    intro n ds
    rw [toDigitsCore_step]
    by_cases h0 : n / 10 = 0
    · rw [if_pos h0]
      simp
    · rw [if_neg h0]
      have h2 := ih (n / 10) (Nat.digitChar (n % 10) :: ds)
      simp only [List.length_cons] at h2
      omega

theorem toDigits_ne_nil (n : Nat) : Nat.toDigits 10 n ≠ [] := by
  unfold Nat.toDigits
  intro h
  have := toDigitsCore_succ_len n n []
  rw [h] at this
  simp at this

theorem nat_repr_tokens (n : Nat) :
    (Nat.repr n).data ≠ [] ∧ ∀ c ∈ (Nat.repr n).data, c.isWhitespace = false := by
  unfold Nat.repr
  constructor
  · intro h
    exact toDigits_ne_nil n h
  · intro c hc
    exact toDigitsCore_not_ws (n + 1) n [] (by simp) c hc

theorem int_toString_tokens (k : Int) :
    (toString k).data ≠ [] ∧ ∀ c ∈ (toString k).data, c.isWhitespace = false := by
  have hts : toString k = Int.repr k := rfl
  rw [hts]
  cases k with
  | ofNat m => simpa [Int.repr] using nat_repr_tokens m
  | negSucc m =>
    have hdata : (Int.repr (Int.negSucc m)).data = '-' :: (Nat.repr (m + 1)).data := by
      show (("-" : String) ++ Nat.repr (Nat.succ m)).data = _
      rw [String.data_append]
      rfl
    rw [hdata]
    refine ⟨by simp, ?_⟩
    intro c hc
    rcases List.mem_cons.mp hc with h1 | h2
    · rw [h1]
      rfl
    · exact (nat_repr_tokens (m + 1)).2 c h2

theorem sequencePost_tokens (tbl : List ActRow)
    (hint : ∀ r ∈ tbl, ∃ k : Int, r.activity_ID = Val.vInt k) :
    ∀ r ∈ activities.sequencePost tbl, ∃ k : Int, valToStr r.activity_ID = toString k := by
  intro r hr
  obtain ⟨r0, hr0mem, hr0⟩ := List.mem_map.mp hr
  have hr0tbl : r0 ∈ tbl := (List.perm_insertionSort occLe tbl).mem_iff.mp hr0mem
  obtain ⟨k, hk⟩ := hint r0 hr0tbl
  refine ⟨k, ?_⟩
  rw [← hr0]
  simp only
  rw [hk]
  rfl

/-- C10 (confirmed): the corpus serialization is lossless.  When every
`activity_ID` cell of the table holds an integer (as `map_activities`
produces in the pipeline), every retained sequence row satisfies: splitting
its whitespace-joined `seq_str` back into maximal whitespace-free runs (the
`WhitespaceTokenizer` used by `skip_grams`) recovers exactly its `seq_list`,
because the tokens are the decimal string forms of the activity IDs and
contain no whitespace. -/
theorem C10_seq_str_roundtrip (tbl : List ActRow) (min_num : Int) (rr : Bool)
    (hint : ∀ r ∈ tbl, ∃ k : Int, r.activity_ID = Val.vInt k) :
    ∀ sr ∈ (activities.sequence tbl min_num rr).2,
      tokenizeWS sr.seq_str = sr.seq_list := by
  intro sr hsr
  simp only [activities.sequence] at hsr
  obtain ⟨p, hpkept, hpsr⟩ := List.mem_map.mp hsr
  have hpgrouped := List.mem_of_mem_filter hpkept
  obtain ⟨i, _, hpi⟩ := List.mem_map.mp hpgrouped
  have htoks : ∀ t ∈ p.2, t.data ≠ [] ∧ ∀ c ∈ t.data, c.isWhitespace = false := by
    intro t ht
    have ht0 : t ∈ ((activities.sequencePost tbl).filter (fun r => r.ID = i)).map
        (fun r => valToStr r.activity_ID) := by
      rw [← hpi] at ht
      simp only at ht
      cases rr with
      | true =>
        simp only [if_true] at ht
        exact (mem_collapseRepeats _ t).mp ht
      | false =>
        simpa using ht
    obtain ⟨r, hrmem, hrt⟩ := List.mem_map.mp ht0
    obtain ⟨k, hk⟩ := sequencePost_tokens tbl hint r (List.mem_of_mem_filter hrmem)
    rw [← hrt, hk]
    exact int_toString_tokens k
  rw [← hpsr]
  simp only
  exact tokenizeWS_joinSep p.2 htoks

/-- Witness for `C10_seq_str_roundtrip` at a concrete input. -/
theorem C10_witness : tokenizeWS "3" = ["3"] :=
  C10_seq_str_roundtrip [⟨"s", "a", 0, Val.vInt 3⟩] 0 true
    (by
      intro r hr
      rw [List.mem_singleton] at hr
      exact ⟨3, by rw [hr]⟩)
    { ID := "s", seq_list := ["3"], step_num := 1, seq_str := "3" } (by decide)
